import Mathlib

/-!
Verification of the SHL assessment recommender (engine.py, main.py).

The Python source is shallowly embedded: JSON values become the inductive
`JVal`, the processed assessment dictionaries become `AssessmentRecord`,
exceptions become `Except PyError`, the sentence-transformer encoder is an
abstract function `String → List Int`, and the FAISS flat L2 index is a list
of integer vectors searched by exact squared-Euclidean distance.
-/

/-- A JSON value as produced by Python's `json.load`. -/
inductive JVal : Type where
  | jnull : JVal
  | jstr : String → JVal
  | jnum : Int → JVal
  | jdict : List (String × JVal) → JVal
  | jlist : List JVal → JVal

instance : Inhabited JVal := ⟨.jnull⟩

/-- The standardized assessment entry built by `load_data` in engine.py:
one field per key of the `assessment` dictionary, each holding the raw JSON
value found in the input record (or the default). -/
structure AssessmentRecord : Type where
  assessment_name : JVal
  assessment_type : JVal
  remote_testing : JVal
  adaptive_irt : JVal
  test_type : JVal
  description : JVal
  job_levels : JVal
  languages : JVal
  duration : JVal
  url : JVal

instance : Inhabited AssessmentRecord :=
  ⟨⟨.jnull, .jnull, .jnull, .jnull, .jnull, .jnull, .jnull, .jnull, .jnull, .jnull⟩⟩

/-- Python `dict.get(key, dflt)`: the stored value when the key is present
(even when that value is `null`), otherwise the default. -/
def dictGet (item : List (String × JVal)) (key : String) (dflt : JVal) : JVal :=
  match item.lookup key with
  | some v => v
  | none => dflt

/-- The body of the `for item in data` loop of `load_data`: the standardized
assessment dictionary, with `''` as the default for every absent key. -/
def standardize (item : List (String × JVal)) : AssessmentRecord :=
  { assessment_name := dictGet item "Title" (.jstr "")
    assessment_type := dictGet item "Product Type" (.jstr "")
    remote_testing := dictGet item "Remote Testing" (.jstr "")
    adaptive_irt := dictGet item "Adaptive/IRT" (.jstr "")
    test_type := dictGet item "Test Type" (.jstr "")
    description := dictGet item "Description" (.jstr "")
    job_levels := dictGet item "Job Levels" (.jstr "")
    languages := dictGet item "Languages" (.jstr "")
    duration := dictGet item "Assessment Length" (.jstr "")
    url := dictGet item "Detail Page" (.jstr "") }

/-- The Python exceptions that `load_data` can raise. -/
inductive PyError : Type where
  | fileNotFoundError : PyError
  | jsonDecodeError : PyError
  | valueError : PyError
  | attributeError : PyError
  deriving DecidableEq

/-- The possible states of the catalog file handed to `load_data`: absent,
present but not valid JSON, or parsed to a JSON value. -/
inductive FileContent : Type where
  | missing : FileContent
  | invalidJson : FileContent
  | parsed : JVal → FileContent

/-- The `for item in data` loop of `load_data`: each item must be a JSON
object (a Python dict); calling `.get` on anything else raises
`AttributeError`, aborting the whole load at the first bad item. -/
def processAssessments : List JVal → Except PyError (List AssessmentRecord)
  | [] => .ok []
  | item :: rest =>
    match item with
    | .jdict fields =>
      match processAssessments rest with
      | .ok recs => .ok (standardize fields :: recs)
      | .error e => .error e
    | _ => .error .attributeError

/-- engine.py `load_data`: `FileNotFoundError` when the file is absent,
`json.JSONDecodeError` when it is not valid JSON, `ValueError` when the
parsed value is not a list or is an empty list, then the standardization
loop over the items. -/
def load_data : FileContent → Except PyError (List AssessmentRecord)
  | .missing => .error .fileNotFoundError
  | .invalidJson => .error .jsonDecodeError
  | .parsed v =>
    match v with
    | .jlist items =>
      if items.isEmpty then .error .valueError else processAssessments items
    | _ => .error .valueError

mutual

/-- Python `repr` of a JSON value, as applied when a non-string value is
interpolated into an f-string inside a container. -/
def pyRepr : JVal → String
  | .jnull => "None"
  | .jstr s => "\x27" ++ s ++ "\x27"
  | .jnum n => toString n
  | .jdict fs => "\x7b" ++ pyReprFields fs ++ "\x7d"
  | .jlist xs => "[" ++ pyReprItems xs ++ "]"

/-- Python `repr` of the comma-separated field list of a dict. -/
def pyReprFields : List (String × JVal) → String
  | [] => ""
  | [(k, v)] => "\x27" ++ k ++ "\x27: " ++ pyRepr v
  | (k, v) :: rest => "\x27" ++ k ++ "\x27: " ++ pyRepr v ++ ", " ++ pyReprFields rest

/-- Python `repr` of the comma-separated item list of a list. -/
def pyReprItems : List JVal → String
  | [] => ""
  | [v] => pyRepr v
  | v :: rest => pyRepr v ++ ", " ++ pyReprItems rest

end

/-- Python `str()` as applied by f-string interpolation: a string prints
bare, anything else via `repr`-style printing (`None` prints as `None`). -/
def pyStr : JVal → String
  | .jstr s => s
  | v => pyRepr v

/-- The rich text block built per record in `create_embeddings`, after
`.strip()`; the f-string pieces keep the source's literal newlines and
indentation. -/
def rich_text (item : AssessmentRecord) : String :=
  ("\n            Assessment Type: " ++ pyStr item.assessment_type
    ++ "\n            Test Type: " ++ pyStr item.test_type
    ++ "\n            Job Levels: " ++ pyStr item.job_levels
    ++ "\n            Description: " ++ pyStr item.description
    ++ "\n            ").trim

/-- engine.py `create_embeddings`: one encoded rich description per record,
in catalog order. The sentence-transformer model is abstracted as the
encoding function `enc`. -/
def create_embeddings (enc : String → List Int) (data : List AssessmentRecord) :
    List (List Int) :=
  data.map (fun item => enc (rich_text item))

/-- engine.py `create_faiss_index`: a flat L2 index holds exactly the rows
added to it, in insertion order. -/
def create_faiss_index (embeddings : List (List Int)) : List (List Int) :=
  embeddings

/-- The squared Euclidean distance computed by a FAISS `IndexFlatL2`. -/
def sqDist (q v : List Int) : Int :=
  (List.zipWith (fun a b => (a - b) * (a - b)) q v).sum

/-- Comparison of scored rows by their distance component. -/
def distLe (a b : Int × Int) : Prop := a.2 ≤ b.2

instance : DecidableRel distLe := fun a b => inferInstanceAs (Decidable (a.2 ≤ b.2))

instance : IsTotal (Int × Int) distLe := ⟨fun a b => le_total a.2 b.2⟩

instance : IsTrans (Int × Int) distLe := ⟨fun _ _ _ h1 h2 => le_trans h1 h2⟩

/-- Every index row paired with its squared distance to the query vector. -/
def scoredList (db : List (List Int)) (q : List Int) : List (Int × Int) :=
  (List.range db.length).map (fun (i : Nat) => ((i : Int), sqDist q (db.getD i [])))

/-- The stored row indices holding the `k` smallest distances, in ascending
distance order. -/
def searchTop (db : List (List Int)) (q : List Int) (k : Nat) : List Int :=
  ((List.insertionSort distLe (scoredList db q)).map Prod.fst).take k

/-- `IndexFlatL2.search` for one query vector: the `k` lowest-distance row
indices in ascending distance order; when `k` exceeds the number of stored
rows, FAISS pads the result with the label `-1`. -/
def faissSearch (db : List (List Int)) (q : List Int) (k : Nat) : List Int :=
  searchTop db q k ++ List.replicate (k - (searchTop db q k).length) (-1)

/-- The effective position of Python index `i` into a list of the given
length: negative indices count from the end. -/
def pyIndex (len : Nat) (i : Int) : Int :=
  if i < 0 then i + len else i

/-- Python list indexing `xs[i]`: negative indices count from the end;
out-of-range indices raise `IndexError` (modelled as `none`). -/
def pyList_get {α : Type} (xs : List α) (i : Int) : Option α :=
  if 0 ≤ pyIndex xs.length i ∧ pyIndex xs.length i < xs.length
  then xs[(pyIndex xs.length i).toNat]?
  else none

/-- The list comprehension `[metadata[i] for i in indices[0]]`: the whole
comprehension raises as soon as one lookup raises. -/
def pyGather {α : Type} (metadata : List α) : List Int → Option (List α)
  | [] => some []
  | i :: rest =>
    match pyList_get metadata i, pyGather metadata rest with
    | some r, some rs => some (r :: rs)
    | _, _ => none

/-- engine.py `get_top_k_recommendations`: wrap the query in the fixed
template, encode it, search the index, and gather the matching records. -/
def get_top_k_recommendations (enc : String → List Int) (query_text : String)
    (index : List (List Int)) (metadata : List AssessmentRecord)
    (top_k : Nat := 10) : Option (List AssessmentRecord) :=
  let enhanced_query := "Find assessments matching: " ++ query_text
  let query_embedding := enc enhanced_query
  let indices := faissSearch index query_embedding top_k
  pyGather metadata indices

/-- The observable outcomes of the HTTP POST to the generation endpoint:
the request itself raises, `raise_for_status` raises on an error status,
`.json()` raises on a non-JSON body, or a parsed JSON body is available. -/
inductive HttpResult : Type where
  | transportError : HttpResult
  | httpErrorStatus : HttpResult
  | bodyNotJson : HttpResult
  | jsonBody : JVal → HttpResult

/-- Python `v[key]`: a value for a dict with the key present, otherwise
`KeyError` or `TypeError` (both modelled as `none`). -/
def jGetKey : JVal → String → Option JVal
  | .jdict fields, key => fields.lookup key
  | _, _ => none

/-- Python `v[i]` on a JSON value for a nonnegative index. -/
def jGetIdx : JVal → Nat → Option JVal
  | .jlist xs, i => xs[i]?
  | _, _ => none

/-- `.strip()` is only valid on a string; anything else raises
`AttributeError` (modelled as `none`). -/
def jAsStr : JVal → Option String
  | .jstr s => some s
  | _ => none

/-- The nested extraction
`response.json()['candidates'][0]['content']['parts'][0]['text']`. -/
def extractGeminiText (v : JVal) : Option String :=
  (jGetKey v "candidates").bind fun cs =>
    (jGetIdx cs 0).bind fun c0 =>
      (jGetKey c0 "content").bind fun ct =>
        (jGetKey ct "parts").bind fun ps =>
          (jGetIdx ps 0).bind fun p0 =>
            (jGetKey p0 "text").bind jAsStr

/-- engine.py `enrich_query_with_gemini`: on success the stripped generated
text; on any exception raised along the way (transport, HTTP status, JSON
parse, shape mismatch) the `except` block returns the original prompt. -/
def enrich_query_with_gemini (resp : HttpResult) (prompt : String) : String :=
  match resp with
  | .jsonBody v =>
    match extractGeminiText v with
    | some text => text.trim
    | none => prompt
  | _ => prompt

/-- Leftmost maximal digit run found by `re.search` with the pattern
`(\d+)` (empty when the string has no digit). -/
def firstDigitRun (s : String) : List Char :=
  (s.toList.dropWhile (fun c => !c.isDigit)).takeWhile Char.isDigit

/-- Python `int` on a decimal digit string. -/
def digitsVal (ds : List Char) : Int :=
  ds.foldl (fun a c => 10 * a + ((c.toNat : Int) - 48)) 0

/-- The duration extraction of the `/recommend` endpoint in main.py: `0`
for a falsy duration string or when the regex finds no digit, otherwise the
integer value of the first match of `(\d+)`. -/
def extract_duration (duration_str : String) : Int :=
  if duration_str = "" then 0
  else
    match firstDigitRun duration_str with
    | [] => 0
    | ds => digitsVal ds

/-- The `test_type_map` of main.py, in insertion order. -/
def test_type_map : List (String × String) :=
  [("K", "Knowledge & Skills"), ("P", "Personality & Behaviour"), ("C", "Competencies"),
   ("A", "Aptitude"), ("E", "English"), ("B", "Behavioral"), ("D", "Development"),
   ("AEBCDP", "Multiple")]

/-- Python substring containment `needle in hay`. -/
def strContainsSub (hay needle : String) : Bool :=
  decide (needle.toList <:+: hay.toList)

/-- The `test_types` list built by the `/recommend` endpoint: for a truthy
test-type string, every map entry whose code occurs as a substring
contributes its name, in map order. -/
def mapped_test_types (test_type : String) : List String :=
  if test_type = "" then []
  else (test_type_map.filter (fun p => strContainsSub test_type p.1)).map Prod.snd

/-- The test-type formatting of the `/recommend` endpoint in main.py: the
mapped names, or the default `['Assessment']` when nothing was mapped. -/
def format_test_types (test_type : String) : List String :=
  if mapped_test_types test_type = [] then ["Assessment"]
  else mapped_test_types test_type

/-- Modelled from the spec: the documented service default result count.
The service documentation stating a default of 5 is not among the sources
under verification; only the number itself is needed here. -/
def documented_service_default : Nat := 5

/-- Stated from the spec for comparison with `load_data`: the parsed value
is a non-empty list whose items are all JSON objects. -/
def isObjList : FileContent → Bool
  | .parsed (.jlist items) =>
    !items.isEmpty && items.all (fun v => match v with | .jdict _ => true | _ => false)
  | _ => false

/-- The ten field values of a standardized record, in source order. -/
def recordFields (r : AssessmentRecord) : List JVal :=
  [r.assessment_name, r.assessment_type, r.remote_testing, r.adaptive_irt, r.test_type,
   r.description, r.job_levels, r.languages, r.duration, r.url]

/-- A record with all fields set to the empty string. -/
def blankRecord : AssessmentRecord :=
  ⟨.jstr "", .jstr "", .jstr "", .jstr "", .jstr "", .jstr "", .jstr "", .jstr "", .jstr "",
    .jstr ""⟩

/-- A blank record carrying only a name, used as concrete catalog data. -/
def namedRecord (s : String) : AssessmentRecord :=
  { blankRecord with assessment_name := .jstr s }

/-- Stated from the claim for comparison with `extract_duration`: `r` is
the first maximal run of digits of `s`: everything before it has no digit,
it is a non-empty run of digits, and it is not immediately followed by a
further digit. -/
def isFirstMaximalDigitRun (s r : List Char) : Prop :=
  ∃ a b, s = a ++ r ++ b ∧ r ≠ [] ∧ (∀ c ∈ a, ¬c.isDigit) ∧ (∀ c ∈ r, c.isDigit) ∧
    ∀ c ∈ b.take 1, ¬c.isDigit

/-- C2: whenever the enrichment call fails in transport, returns an error
status, yields a non-JSON body, or yields JSON without the expected nested
shape, `enrich_query_with_gemini` returns the original query unchanged
(and, as a total function of the modelled response, never propagates an
exception past the enrichment boundary). -/
theorem enrich_fallback_returns_prompt (resp : HttpResult) (prompt : String)
    (h : resp = .transportError ∨ resp = .httpErrorStatus ∨ resp = .bodyNotJson ∨
      ∃ v, resp = .jsonBody v ∧ extractGeminiText v = none) :
    enrich_query_with_gemini resp prompt = prompt := by
  rcases h with rfl | rfl | rfl | ⟨v, rfl, hv⟩
  · rfl
  · rfl
  · rfl
  · simp [enrich_query_with_gemini, hv]

theorem enrich_fallback_returns_prompt_witness :
    enrich_query_with_gemini .transportError "java developer" = "java developer" :=
  enrich_fallback_returns_prompt .transportError "java developer" (Or.inl rfl)

/-- C7: with a fixed encoding function, two invocations of
`get_top_k_recommendations` on equal query texts, equal indexes, equal
metadata and equal K return equal result lists. -/
theorem get_top_k_recommendations_deterministic (enc : String → List Int)
    (q1 q2 : String) (index1 index2 : List (List Int))
    (m1 m2 : List AssessmentRecord) (k1 k2 : Nat)
    (hq : q1 = q2) (hi : index1 = index2) (hm : m1 = m2) (hk : k1 = k2) :
    get_top_k_recommendations enc q1 index1 m1 k1
      = get_top_k_recommendations enc q2 index2 m2 k2 := by
  subst hq; subst hi; subst hm; subst hk; rfl

theorem get_top_k_recommendations_deterministic_witness :
    get_top_k_recommendations (fun _ => [0]) "q" [[1]] [blankRecord] 1
      = get_top_k_recommendations (fun _ => [0]) "q" [[1]] [blankRecord] 1 :=
  get_top_k_recommendations_deterministic (fun _ => [0]) "q" "q" [[1]] [[1]]
    [blankRecord] [blankRecord] 1 1 rfl rfl rfl rfl

/-- C8: the library-path default for the result count (the `top_k` default
argument of `get_top_k_recommendations`) is 10, while the documented
service default is 5, and the two defaults differ. -/
theorem topk_default_mismatch (enc : String → List Int) (q : String)
    (index : List (List Int)) (metadata : List AssessmentRecord) :
    get_top_k_recommendations enc q index metadata
        = get_top_k_recommendations enc q index metadata 10
      ∧ documented_service_default = 5
      ∧ 10 ≠ documented_service_default :=
  ⟨rfl, rfl, by decide⟩

/-- C3: the pipeline builds exactly one embedding per record and the index
holds exactly those rows: the constructed index's size equals the catalog
size and the row at position `i` is the encoding of the rich description of
the record at position `i`. -/
theorem index_aligned_with_catalog (enc : String → List Int)
    (data : List AssessmentRecord) :
    (create_faiss_index (create_embeddings enc data)).length = data.length
      ∧ ∀ i, i < data.length →
        (create_faiss_index (create_embeddings enc data)).getD i []
          = enc (rich_text (data.getD i default)) := by
  constructor
  · simp [create_faiss_index, create_embeddings]
  · intro i hi
    simp [create_faiss_index, create_embeddings, List.getD_eq_getElem?_getD,
      List.getElem?_map, List.getElem?_eq_getElem, hi]

theorem index_aligned_with_catalog_witness :
    (create_faiss_index (create_embeddings (fun _ => [7]) [blankRecord])).getD 0 [] = [7] := by
  have h := (index_aligned_with_catalog (fun _ => [7]) [blankRecord]).2 0 (by simp)
  simpa using h

/-- Standardizing a list of JSON objects never fails and standardizes each
object in order. -/
theorem processAssessments_map_jdict (items : List (List (String × JVal))) :
    processAssessments (items.map .jdict) = .ok (items.map standardize) := by
  induction items with
  | nil => rfl
  | cons fs rest ih => simp [processAssessments, ih]

/-- A value satisfies the object test of `isObjList` exactly when it is a
JSON object. -/
theorem isJDict_eq_true (v : JVal) :
    (match v with | JVal.jdict _ => true | _ => false) = true
      ↔ ∃ fields, v = JVal.jdict fields := by
  cases v <;> simp

/-- `processAssessments` succeeds exactly on lists of JSON objects. -/
theorem processAssessments_ok_iff (items : List JVal) :
    (∃ recs, processAssessments items = .ok recs)
      ↔ ∀ v ∈ items, ∃ fields, v = JVal.jdict fields := by
  induction items with
  | nil => simp [processAssessments]
  | cons v rest ih =>
    cases v with
    | jdict fields =>
      simp only [processAssessments]
      constructor
      · rintro ⟨recs, h⟩
        intro w hw
        rcases List.mem_cons.mp hw with rfl | hw
        · exact ⟨fields, rfl⟩
        · refine ih.mp ?_ w hw
          cases hrec : processAssessments rest with
          | ok recs2 => exact ⟨recs2, rfl⟩
          | error e => rw [hrec] at h; cases h
      · intro hall
        obtain ⟨recs2, h2⟩ := ih.mpr (fun w hw => hall w (List.mem_cons_of_mem _ hw))
        exact ⟨standardize fields :: recs2, by rw [h2]⟩
    | jnull =>
      constructor
      · rintro ⟨recs, h⟩; cases h
      · intro hall
        obtain ⟨fields, hf⟩ := hall .jnull (List.mem_cons_self _ _)
        cases hf
    | jstr s =>
      constructor
      · rintro ⟨recs, h⟩; cases h
      · intro hall
        obtain ⟨fields, hf⟩ := hall (.jstr s) (List.mem_cons_self _ _)
        cases hf
    | jnum n =>
      constructor
      · rintro ⟨recs, h⟩; cases h
      · intro hall
        obtain ⟨fields, hf⟩ := hall (.jnum n) (List.mem_cons_self _ _)
        cases hf
    | jlist xs =>
      constructor
      · rintro ⟨recs, h⟩; cases h
      · intro hall
        obtain ⟨fields, hf⟩ := hall (.jlist xs) (List.mem_cons_self _ _)
        cases hf

/-- A successful `List.lookup` returns one of the stored values. -/
theorem lookup_mem_values {key : String} {item : List (String × JVal)} {v : JVal}
    (h : item.lookup key = some v) : v ∈ item.map Prod.snd := by
  induction item with
  | nil => cases h
  | cons p rest ih =>
    obtain ⟨k, b⟩ := p
    by_cases hk : key = k
    · subst hk
      simp [List.lookup] at h
      simp [h]
    · have hb : (key == k) = false := beq_eq_false_iff_ne.mpr hk
      rw [List.lookup, hb] at h
      exact List.mem_cons_of_mem _ (ih h)

/-- `dict.get key dflt` is a stored value or the default. -/
theorem dictGet_mem_or_default (item : List (String × JVal)) (key : String) (dflt : JVal) :
    dictGet item key dflt ∈ item.map Prod.snd ∨ dictGet item key dflt = dflt := by
  unfold dictGet
  cases h : item.lookup key with
  | none => exact Or.inr rfl
  | some v => exact Or.inl (lookup_mem_values h)

/-- Every field of a standardized record is a raw value of the input object
or the substituted empty string. -/
theorem standardize_fields_mem_or_empty (item : List (String × JVal)) :
    ∀ f ∈ recordFields (standardize item), f ∈ item.map Prod.snd ∨ f = .jstr "" := by
  intro f hf
  simp only [recordFields, standardize, List.mem_cons, List.not_mem_nil, or_false] at hf
  rcases hf with rfl | rfl | rfl | rfl | rfl | rfl | rfl | rfl | rfl | rfl <;>
    exact dictGet_mem_or_default ..

/-- C4 counterexample: a parseable non-empty list whose single record maps
`Title` to an explicit `null`; `load_data` succeeds but the returned
record's `assessment_name` field is `null`, not the empty string. -/
theorem load_data_null_field_counterexample :
    load_data (.parsed (.jlist [.jdict [("Title", .jnull)]]))
        = .ok [standardize [("Title", JVal.jnull)]]
      ∧ (standardize [("Title", JVal.jnull)]).assessment_name = JVal.jnull
      ∧ JVal.jnull ≠ JVal.jstr "" :=
  ⟨rfl, rfl, fun h => JVal.noConfusion h⟩

/-- C4 (amended): any parseable non-empty list of JSON objects loads
successfully into one record per object; every field of every returned
record is either a value present in some raw object or the empty string
substituted for an absent key (never left out), and in particular when no
raw value is `null` no returned field is `null`. -/
theorem load_data_normalizes_records (items : List (List (String × JVal)))
    (hne : items ≠ []) :
    load_data (.parsed (.jlist (items.map .jdict))) = .ok (items.map standardize)
      ∧ (items.map standardize).length = items.length
      ∧ (∀ r ∈ items.map standardize, ∀ f ∈ recordFields r,
          (∃ fs ∈ items, f ∈ fs.map Prod.snd) ∨ f = .jstr "")
      ∧ ((∀ fs ∈ items, ∀ p ∈ fs, Prod.snd p ≠ JVal.jnull) →
          ∀ r ∈ items.map standardize, ∀ f ∈ recordFields r, f ≠ JVal.jnull) := by
  have hmem : ∀ r ∈ items.map standardize, ∀ f ∈ recordFields r,
      (∃ fs ∈ items, f ∈ fs.map Prod.snd) ∨ f = .jstr "" := by
    intro r hr f hf
    obtain ⟨fs, hfs, rfl⟩ := List.mem_map.mp hr
    rcases standardize_fields_mem_or_empty fs f hf with h | h
    · exact Or.inl ⟨fs, hfs, h⟩
    · exact Or.inr h
  refine ⟨?_, List.length_map _ _, hmem, ?_⟩
  · have : (items.map JVal.jdict).isEmpty = false := by
      cases items with
      | nil => exact absurd rfl hne
      | cons a l => rfl
    simp only [load_data, this, Bool.false_eq_true, if_false]
    exact processAssessments_map_jdict items
  · intro hnull r hr f hf
    rcases hmem r hr f hf with ⟨fs, hfs, hv⟩ | rfl
    · obtain ⟨p, hp, rfl⟩ := List.mem_map.mp hv
      exact hnull fs hfs p hp
    · exact fun h => JVal.noConfusion h

theorem load_data_normalizes_records_witness :
    load_data (.parsed (.jlist [JVal.jdict [("Title", JVal.jstr "T")]]))
        = .ok [standardize [("Title", JVal.jstr "T")]]
      ∧ (standardize [("Title", JVal.jstr "T")]).assessment_name = JVal.jstr "T" := by
  have h := load_data_normalizes_records [[("Title", JVal.jstr "T")]] (by simp)
  exact ⟨by simpa using h.1, rfl⟩

/-- C5 counterexample: the file parses to the non-empty list `[42]`, which
is none of the four listed failure cases, yet `load_data` raises
(`AttributeError` on `(42).get`) and returns no record list. -/
theorem load_data_error_cases_not_exhaustive :
    load_data (.parsed (.jlist [.jnum 42])) = .error .attributeError
      ∧ ([JVal.jnum 42] : List JVal) ≠ [] :=
  ⟨rfl, by simp⟩

/-- C5 (amended): `load_data` raises the respective error when the file is
missing, unparseable, an empty list, or a non-list; but these cases are not
exhaustive: a record list is returned exactly when the file parses to a
non-empty list of JSON objects (a non-empty list containing a non-object
raises `AttributeError` instead). -/
theorem load_data_error_characterization (c : FileContent) :
    load_data .missing = .error .fileNotFoundError
      ∧ load_data .invalidJson = .error .jsonDecodeError
      ∧ load_data (.parsed (.jlist [])) = .error .valueError
      ∧ (∀ v : JVal, (∀ items, v ≠ .jlist items) →
          load_data (.parsed v) = .error .valueError)
      ∧ ((∃ recs, load_data c = .ok recs) ↔ isObjList c = true) := by
  refine ⟨rfl, rfl, rfl, ?_, ?_⟩
  · intro v hv
    cases v with
    | jlist items => exact absurd rfl (hv items)
    | jnull => rfl
    | jstr s => rfl
    | jnum n => rfl
    | jdict fs => rfl
  · cases c with
    | missing => simp [load_data, isObjList]
    | invalidJson => simp [load_data, isObjList]
    | parsed v =>
      cases v with
      | jlist items =>
        cases hemp : items.isEmpty with
        | true =>
          rw [List.isEmpty_iff] at hemp
          subst hemp
          simp [load_data, isObjList]
        | false =>
          have hld : load_data (.parsed (.jlist items)) = processAssessments items := by
            simp [load_data, hemp]
          rw [hld, processAssessments_ok_iff]
          simp [isObjList, hemp, List.all_eq_true, isJDict_eq_true]
      | jnull => simp [load_data, isObjList]
      | jstr s => simp [load_data, isObjList]
      | jnum n => simp [load_data, isObjList]
      | jdict fs => simp [load_data, isObjList]

theorem load_data_error_characterization_witness :
    ∃ recs, load_data (.parsed (.jlist [.jdict []])) = .ok recs :=
  (load_data_error_characterization (.parsed (.jlist [.jdict []]))).2.2.2.2.mpr (by decide)

/-- A decimal digit character has code point between 48 and 57. -/
theorem le_toNat_of_isDigit {c : Char} (h : c.isDigit = true) :
    48 ≤ c.toNat ∧ c.toNat ≤ 57 := by
  simp only [Char.isDigit, ge_iff_le, Bool.and_eq_true, decide_eq_true_eq] at h
  obtain ⟨h1, h2⟩ := h
  rw [UInt32.le_def, BitVec.le_def] at h1 h2
  exact ⟨h1, h2⟩

/-- The decimal accumulation of `digitsVal` keeps a nonnegative
accumulator nonnegative on digit characters. -/
theorem digitsVal_foldl_nonneg (ds : List Char) (h : ∀ c ∈ ds, c.isDigit) :
    ∀ a : Int, 0 ≤ a → 0 ≤ ds.foldl (fun a c => 10 * a + ((c.toNat : Int) - 48)) a := by
  induction ds with
  | nil => intro a ha; simpa using ha
  | cons c cs ih =>
    intro a ha
    simp only [List.foldl_cons]
    apply ih (fun x hx => h x (List.mem_cons_of_mem _ hx))
    have hc := (le_toNat_of_isDigit (h c (List.mem_cons_self _ _))).1
    have hcast : (48 : Int) ≤ (c.toNat : Int) := by exact_mod_cast hc
    linarith

/-- `dropWhile` skips over a block that satisfies the predicate. -/
theorem dropWhile_append_all {p : Char → Bool} (a t : List Char)
    (ha : ∀ c ∈ a, p c = true) : (a ++ t).dropWhile p = t.dropWhile p := by
  induction a with
  | nil => simp
  | cons c cs ih =>
    simp only [List.cons_append, List.dropWhile_cons_of_pos (ha c (List.mem_cons_self _ _))]
    exact ih (fun x hx => ha x (List.mem_cons_of_mem _ hx))

/-- `takeWhile` keeps a whole block that satisfies the predicate. -/
theorem takeWhile_append_all {p : Char → Bool} (r b : List Char)
    (hr : ∀ c ∈ r, p c = true) : (r ++ b).takeWhile p = r ++ b.takeWhile p := by
  induction r with
  | nil => simp
  | cons c cs ih =>
    simp only [List.cons_append, List.takeWhile_cons_of_pos (hr c (List.mem_cons_self _ _))]
    rw [ih (fun x hx => hr x (List.mem_cons_of_mem _ hx))]

/-- The regex model finds exactly the first maximal digit run when one
exists. -/
theorem firstDigitRun_eq_of_spec (s : String) (r : List Char)
    (h : isFirstMaximalDigitRun s.toList r) : firstDigitRun s = r := by
  obtain ⟨a, b, hs, hrne, ha, hr, hb⟩ := h
  unfold firstDigitRun
  rw [hs, List.append_assoc]
  rw [dropWhile_append_all a (r ++ b) (fun c hc => by simpa using ha c hc)]
  cases r with
  | nil => exact absurd rfl hrne
  | cons c0 cs =>
    have hc0 : c0.isDigit := hr c0 (List.mem_cons_self _ _)
    rw [List.cons_append, List.dropWhile_cons_of_neg (by simp [hc0])]
    rw [← List.cons_append,
      takeWhile_append_all (c0 :: cs) b (fun c hc => hr c hc)]
    have hbt : b.takeWhile Char.isDigit = [] := by
      cases b with
      | nil => rfl
      | cons x xs => exact List.takeWhile_cons_of_neg (hb x (by simp))
    rw [hbt, List.append_nil]

/-- C9: the duration computed by the `/recommend` endpoint is never
negative; it is `0` for an empty duration string and for a string without
digits; and whenever `r` is the first maximal digit run of the string (the
match of the regex `(\d+)`), the duration equals the integer value of `r`. -/
theorem extract_duration_spec (s : String) :
    0 ≤ extract_duration s
      ∧ (s = "" → extract_duration s = 0)
      ∧ ((∀ c ∈ s.toList, ¬c.isDigit) → extract_duration s = 0)
      ∧ ∀ r, isFirstMaximalDigitRun s.toList r → extract_duration s = digitsVal r := by
  refine ⟨?_, ?_, ?_, ?_⟩
  · unfold extract_duration
    by_cases h0 : s = ""
    · simp [h0]
    · rw [if_neg h0]
      cases hfd : firstDigitRun s with
      | nil => simp
      | cons c cs =>
        have hall : ∀ x ∈ (c :: cs), x.isDigit := by
          intro x hx
          rw [← hfd] at hx
          exact List.mem_takeWhile_imp hx
        exact digitsVal_foldl_nonneg (c :: cs) hall 0 le_rfl
  · intro h0; simp [extract_duration, h0]
  · intro hnd
    unfold extract_duration
    by_cases h0 : s = ""
    · simp [h0]
    · rw [if_neg h0]
      have hd : s.toList.dropWhile (fun c => !c.isDigit) = [] := by
        rw [List.dropWhile_eq_nil_iff]
        intro x hx
        simpa using hnd x hx
      have hfr : firstDigitRun s = [] := by
        unfold firstDigitRun
        rw [hd]
        rfl
      rw [hfr]
  · intro r hjr
    have hfr := firstDigitRun_eq_of_spec s r hjr
    obtain ⟨a, b, hs, hrne, ha, hr, hb⟩ := hjr
    unfold extract_duration
    have h0 : s ≠ "" := by
      intro h
      subst h
      have h1 : a ++ r ++ b = [] := hs.symm
      have h2 := List.append_eq_nil.mp h1
      have h3 := List.append_eq_nil.mp h2.1
      exact hrne h3.2
    rw [if_neg h0, hfr]
    cases r with
    | nil => exact absurd rfl hrne
    | cons c cs => rfl

theorem extract_duration_spec_witness : extract_duration "10 mins" = 10 := by
  have h := (extract_duration_spec "10 mins").2.2.2 ("10".toList)
    ⟨[], " mins".toList, by decide, by decide, by decide, by decide, by decide⟩
  exact h.trans (by decide)

/-- C10: the formatted test-type list is never empty; every single-letter
code of the map occurring in the record's test-type string contributes its
mapped full name; and when no code of the map occurs (in particular for the
empty string) the list is exactly `['Assessment']`. -/
theorem format_test_types_spec (t : String) :
    format_test_types t ≠ []
      ∧ (∀ code fullname, (code, fullname) ∈ test_type_map → code.length = 1 →
          strContainsSub t code = true → fullname ∈ format_test_types t)
      ∧ ((∀ code fullname, (code, fullname) ∈ test_type_map →
            strContainsSub t code = false) →
          format_test_types t = ["Assessment"])
      ∧ format_test_types "" = ["Assessment"] := by
  refine ⟨?_, ?_, ?_, by decide⟩
  · unfold format_test_types
    by_cases h : mapped_test_types t = []
    · simp [h]
    · simp [h]
  · intro code fullname hmem hlen hsub
    have ht : t ≠ "" := by
      intro h0
      subst h0
      have hinf : code.toList <:+: ("".toList) := of_decide_eq_true hsub
      have hcl : code.toList = [] := List.eq_nil_of_infix_nil hinf
      have hlen0 : code.length = 0 := by
        show code.data.length = 0
        rw [show code.data = [] from hcl]
        rfl
      omega
    have hmm : fullname ∈ mapped_test_types t := by
      unfold mapped_test_types
      rw [if_neg ht]
      exact List.mem_map.mpr ⟨(code, fullname), List.mem_filter.mpr ⟨hmem, hsub⟩, rfl⟩
    unfold format_test_types
    rw [if_neg (by intro h; rw [h] at hmm; cases hmm)]
    exact hmm
  · intro hall
    have hfil : test_type_map.filter (fun p => strContainsSub t p.1) = [] := by
      rw [List.filter_eq_nil_iff]
      intro p hp
      obtain ⟨c, n⟩ := p
      simp [hall c n hp]
    unfold format_test_types mapped_test_types
    by_cases ht : t = "" <;> simp [ht, hfil]

theorem format_test_types_spec_witness :
    "Knowledge & Skills" ∈ format_test_types "KP" :=
  (format_test_types_spec "KP").2.1 "K" "Knowledge & Skills" (by decide) (by decide)
    (by decide)

/-- Every scored pair is a valid row index together with its distance. -/
theorem scoredList_snd {db : List (List Int)} {q : List Int} {p : Int × Int}
    (hp : p ∈ scoredList db q) :
    0 ≤ p.1 ∧ p.1 < db.length ∧ p.2 = sqDist q (db.getD p.1.toNat []) := by
  obtain ⟨i, hi, hpe⟩ := List.mem_map.mp hp
  have hi2 := List.mem_range.mp hi
  subst hpe
  refine ⟨Int.ofNat_nonneg i, ?_, by simp⟩
  exact (show ((i : Int)) < ((db.length : Int)) by exact_mod_cast hi2)

/-- Every valid row index is scored. -/
theorem scoredList_mem_of_lt {db : List (List Int)} {q : List Int} {i : Nat}
    (hi : i < db.length) :
    ((i : Int), sqDist q (db.getD i [])) ∈ scoredList db q :=
  List.mem_map.mpr ⟨i, List.mem_range.mpr hi, rfl⟩

/-- The scored row indices are pairwise distinct. -/
theorem scoredList_fst_nodup (db : List (List Int)) (q : List Int) :
    ((scoredList db q).map Prod.fst).Nodup := by
  unfold scoredList
  rw [List.map_map]
  exact (List.nodup_range _).map (fun a b h => by simpa using h)

/-- The number of selected rows never exceeds `k`. -/
theorem searchTop_length_le (db : List (List Int)) (q : List Int) (k : Nat) :
    (searchTop db q k).length ≤ k := by
  unfold searchTop
  rw [List.length_take]
  omega

/-- A FAISS search for `k` neighbors returns exactly `k` labels (padding
with `-1` when fewer rows are stored). -/
theorem faissSearch_length (db : List (List Int)) (q : List Int) (k : Nat) :
    (faissSearch db q k).length = k := by
  unfold faissSearch
  rw [List.length_append, List.length_replicate]
  have h := searchTop_length_le db q k
  omega

/-- Every label returned by a FAISS search is a valid row index or the
padding label `-1`. -/
theorem mem_faissSearch {db : List (List Int)} {q : List Int} {k : Nat} {i : Int}
    (h : i ∈ faissSearch db q k) : i = -1 ∨ (0 ≤ i ∧ i < db.length) := by
  unfold faissSearch at h
  rcases List.mem_append.mp h with h | h
  · right
    unfold searchTop at h
    obtain ⟨p, hp, rfl⟩ := List.mem_map.mp (List.mem_of_mem_take h)
    have hp2 : p ∈ scoredList db q := (List.mem_insertionSort distLe).mp hp
    obtain ⟨h0, hl, -⟩ := scoredList_snd hp2
    exact ⟨h0, hl⟩
  · left
    exact List.eq_of_mem_replicate h

/-- A Python lookup that succeeds returns a member of the list. -/
theorem pyList_get_mem {α : Type} {xs : List α} {i : Int} {r : α}
    (h : pyList_get xs i = some r) : r ∈ xs := by
  unfold pyList_get at h
  by_cases hc : 0 ≤ pyIndex xs.length i ∧ pyIndex xs.length i < xs.length
  · rw [if_pos hc] at h
    exact List.getElem?_mem h
  · rw [if_neg hc] at h
    cases h

/-- On a non-empty list, Python indexing succeeds for every valid
nonnegative index and for `-1`. -/
theorem pyList_get_valid {α : Type} {xs : List α} (hne : xs ≠ []) {i : Int}
    (h : i = -1 ∨ (0 ≤ i ∧ i < xs.length)) : ∃ r, pyList_get xs i = some r := by
  have hlen : 0 < xs.length := List.length_pos.mpr hne
  have hcond : 0 ≤ pyIndex xs.length i ∧ pyIndex xs.length i < xs.length := by
    unfold pyIndex
    rcases h with rfl | ⟨h0, hl⟩
    · rw [if_pos (by norm_num)]
      constructor <;> omega
    · rw [if_neg (by omega)]
      exact ⟨h0, hl⟩
  have hidx : (pyIndex xs.length i).toNat < xs.length := by omega
  refine ⟨xs[(pyIndex xs.length i).toNat], ?_⟩
  unfold pyList_get
  rw [if_pos hcond]
  exact List.getElem?_eq_getElem hidx

/-- Gathering succeeds whenever every lookup does, returns one record per
index, and returns only looked-up records. -/
theorem pyGather_sound {α : Type} (metadata : List α) (idxs : List Int)
    (h : ∀ i ∈ idxs, ∃ r, pyList_get metadata i = some r) :
    ∃ rs, pyGather metadata idxs = some rs ∧ rs.length = idxs.length ∧
      ∀ r ∈ rs, ∃ i ∈ idxs, pyList_get metadata i = some r := by
  induction idxs with
  | nil => exact ⟨[], rfl, rfl, by simp⟩
  | cons i rest ih =>
    obtain ⟨r, hr⟩ := h i (List.mem_cons_self _ _)
    obtain ⟨rs, hrs, hlen, hmem⟩ := ih (fun j hj => h j (List.mem_cons_of_mem _ hj))
    refine ⟨r :: rs, ?_, by simp [hlen], ?_⟩
    · simp only [pyGather, hr, hrs]
    · intro x hx
      rcases List.mem_cons.mp hx with rfl | hx
      · exact ⟨i, List.mem_cons_self _ _, hr⟩
      · obtain ⟨j, hj, hjr⟩ := hmem x hx
        exact ⟨j, List.mem_cons_of_mem _ hj, hjr⟩

/-- C1: for a non-empty catalog with its pipeline-built index and any
K ≥ 1, the recommendation call raises no lookup error (every FAISS label,
including the `-1` padding when K exceeds the catalog size, resolves to a
catalog record through Python indexing) and returns at most K records, all
of them records of the catalog list. -/
theorem get_top_k_recommendations_safe (enc : String → List Int) (q : String)
    (data : List AssessmentRecord) (k : Nat) (hne : data ≠ []) (hk : 1 ≤ k) :
    ∃ rs, get_top_k_recommendations enc q
        (create_faiss_index (create_embeddings enc data)) data k = some rs
      ∧ rs.length ≤ k
      ∧ ∀ r ∈ rs, r ∈ data := by
  have hlen : (create_faiss_index (create_embeddings enc data)).length = data.length := by
    simp [create_faiss_index, create_embeddings]
  have hvalid : ∀ i ∈ faissSearch (create_faiss_index (create_embeddings enc data))
      (enc ("Find assessments matching: " ++ q)) k,
      ∃ r, pyList_get data i = some r := by
    intro i hi
    rcases mem_faissSearch hi with rfl | ⟨h0, hl⟩
    · exact pyList_get_valid hne (Or.inl rfl)
    · exact pyList_get_valid hne (Or.inr ⟨h0, by rw [← hlen]; exact hl⟩)
  obtain ⟨rs, hrs, hrslen, hrsmem⟩ := pyGather_sound data _ hvalid
  refine ⟨rs, hrs, ?_, ?_⟩
  · exact le_of_eq (hrslen.trans (faissSearch_length _ _ _))
  · intro r hr
    obtain ⟨i, hi, hip⟩ := hrsmem r hr
    exact pyList_get_mem hip

theorem get_top_k_recommendations_safe_witness :
    ∃ rs, get_top_k_recommendations (fun _ => [1]) "x"
        (create_faiss_index (create_embeddings (fun _ => [1]) [blankRecord]))
        [blankRecord] 2 = some rs
      ∧ rs.length ≤ 2
      ∧ ∀ r ∈ rs, r ∈ [blankRecord] :=
  get_top_k_recommendations_safe (fun _ => [1]) "x" [blankRecord] 2 (by simp) (by omega)

/-- One scored pair per stored row. -/
theorem scoredList_length (db : List (List Int)) (q : List Int) :
    (scoredList db q).length = db.length := by
  unfold scoredList
  rw [List.length_map, List.length_range]

/-- When `k` does not exceed the stored row count there is no padding and
exactly `k` rows are selected. -/
theorem faissSearch_eq_searchTop (db : List (List Int)) (q : List Int) (k : Nat)
    (hk : k ≤ db.length) :
    faissSearch db q k = searchTop db q k ∧ (searchTop db q k).length = k := by
  have hlen : (searchTop db q k).length = k := by
    unfold searchTop
    rw [List.length_take, List.length_map, List.length_insertionSort, scoredList_length]
    exact Nat.min_eq_left hk
  refine ⟨?_, hlen⟩
  unfold faissSearch
  rw [hlen, Nat.sub_self]
  simp

/-- Within-range search: the selected rows are `k` distinct valid indices,
their distances to the query ascend, and no unselected row is closer than
any selected one. -/
theorem faissSearch_sorted_minimal (db : List (List Int)) (q : List Int) (k : Nat)
    (hk : k ≤ db.length) :
    (faissSearch db q k).Nodup
      ∧ (∀ i ∈ faissSearch db q k, 0 ≤ i ∧ i < db.length)
      ∧ List.Sorted (fun a b => a ≤ b)
          ((faissSearch db q k).map (fun i => sqDist q (db.getD i.toNat [])))
      ∧ ∀ i ∈ faissSearch db q k, ∀ j : Int, 0 ≤ j → j < db.length →
          j ∉ faissSearch db q k →
          sqDist q (db.getD i.toNat []) ≤ sqDist q (db.getD j.toNat []) := by
  obtain ⟨hfs, hlen⟩ := faissSearch_eq_searchTop db q k hk
  have hsort : List.Sorted distLe (List.insertionSort distLe (scoredList db q)) :=
    List.sorted_insertionSort distLe _
  have htop : searchTop db q k
      = ((List.insertionSort distLe (scoredList db q)).take k).map Prod.fst := by
    unfold searchTop
    rw [List.map_take]
  have hmemtake : ∀ p ∈ (List.insertionSort distLe (scoredList db q)).take k,
      p ∈ scoredList db q := fun p hp =>
    (List.mem_insertionSort distLe).mp (List.mem_of_mem_take hp)
  have hnodup : (faissSearch db q k).Nodup := by
    rw [hfs]
    unfold searchTop
    refine List.Nodup.sublist (List.take_sublist _ _) ?_
    exact ((List.perm_insertionSort distLe (scoredList db q)).map Prod.fst).nodup_iff.mpr
      (scoredList_fst_nodup db q)
  have hvalid : ∀ i ∈ faissSearch db q k, 0 ≤ i ∧ i < db.length := by
    intro i hi
    rw [hfs, htop] at hi
    obtain ⟨p, hp, rfl⟩ := List.mem_map.mp hi
    obtain ⟨h0, hl, -⟩ := scoredList_snd (hmemtake p hp)
    exact ⟨h0, hl⟩
  have hsorted_dist : List.Sorted (fun a b => a ≤ b)
      ((faissSearch db q k).map (fun i => sqDist q (db.getD i.toNat []))) := by
    rw [hfs, htop, List.map_map]
    have hpt : ∀ p ∈ (List.insertionSort distLe (scoredList db q)).take k,
        ((fun i => sqDist q (db.getD i.toNat [])) ∘ Prod.fst) p = p.2 := by
      intro p hp
      exact ((scoredList_snd (hmemtake p hp)).2.2).symm
    rw [List.map_congr_left hpt]
    have hsk : List.Pairwise distLe ((List.insertionSort distLe (scoredList db q)).take k) :=
      List.Pairwise.sublist (List.take_sublist _ _) hsort
    exact List.Pairwise.map Prod.snd (fun a b hab => hab) hsk
  refine ⟨hnodup, hvalid, hsorted_dist, ?_⟩
  intro i hi j hj0 hjl hj
  rw [hfs, htop] at hi hj
  obtain ⟨pi, hpi, rfl⟩ := List.mem_map.mp hi
  have hjn : ((j.toNat : Nat) : Int) = j := Int.toNat_of_nonneg hj0
  have hjlt : j.toNat < db.length := by omega
  have hpj2 : ((j.toNat : Int), sqDist q (db.getD j.toNat []))
      ∈ List.insertionSort distLe (scoredList db q) :=
    (List.mem_insertionSort distLe).mpr (scoredList_mem_of_lt hjlt)
  rw [← List.take_append_drop k (List.insertionSort distLe (scoredList db q))] at hpj2
  rcases List.mem_append.mp hpj2 with hin | hin
  · exact absurd (List.mem_map.mpr ⟨_, hin, hjn⟩) hj
  · have hpw : List.Pairwise distLe
        ((List.insertionSort distLe (scoredList db q)).take k
          ++ (List.insertionSort distLe (scoredList db q)).drop k) := by
      rw [List.take_append_drop]
      exact hsort
    have hle := (List.pairwise_append.mp hpw).2.2 pi hpi _ hin
    have hpi2 := (scoredList_snd (hmemtake pi hpi)).2.2
    calc sqDist q (db.getD pi.1.toNat []) = pi.2 := hpi2.symm
      _ ≤ sqDist q (db.getD j.toNat []) := hle

/-- C6 (amended): for every query and every K up to the catalog size, the
returned list gathers K distinct valid rows whose distances to the query
embedding are in ascending order, and no unselected row is closer than any
selected one — i.e. the K lowest-distance rows in ascending distance order;
when K exceeds the catalog size FAISS pads with the label `-1`, which
Python indexing resolves to the last record, and the padded tail can break
the ascending order. -/
theorem get_top_k_recommendations_sorted (enc : String → List Int) (q : String)
    (index : List (List Int)) (metadata : List AssessmentRecord) (k : Nat)
    (hk : k ≤ index.length) (hlen : index.length = metadata.length)
    (hne : metadata ≠ []) :
    (∃ rs, get_top_k_recommendations enc q index metadata k = some rs
        ∧ rs.length = k
        ∧ ∀ r ∈ rs, r ∈ metadata)
      ∧ (faissSearch index (enc ("Find assessments matching: " ++ q)) k).Nodup
      ∧ (∀ i ∈ faissSearch index (enc ("Find assessments matching: " ++ q)) k,
          0 ≤ i ∧ i < index.length)
      ∧ List.Sorted (fun a b => a ≤ b)
          ((faissSearch index (enc ("Find assessments matching: " ++ q)) k).map
            (fun i => sqDist (enc ("Find assessments matching: " ++ q))
              (index.getD i.toNat [])))
      ∧ ∀ i ∈ faissSearch index (enc ("Find assessments matching: " ++ q)) k,
          ∀ j : Int, 0 ≤ j → j < index.length →
            j ∉ faissSearch index (enc ("Find assessments matching: " ++ q)) k →
            sqDist (enc ("Find assessments matching: " ++ q)) (index.getD i.toNat [])
              ≤ sqDist (enc ("Find assessments matching: " ++ q))
                  (index.getD j.toNat []) := by
  obtain ⟨hnd, hval, hsd, hmin⟩ :=
    faissSearch_sorted_minimal index (enc ("Find assessments matching: " ++ q)) k hk
  refine ⟨?_, hnd, hval, hsd, hmin⟩
  have hvalid : ∀ i ∈ faissSearch index (enc ("Find assessments matching: " ++ q)) k,
      ∃ r, pyList_get metadata i = some r := by
    intro i hi
    obtain ⟨h0, hl⟩ := hval i hi
    exact pyList_get_valid hne (Or.inr ⟨h0, by rw [← hlen]; exact hl⟩)
  obtain ⟨rs, hrs, hrslen, hmem⟩ := pyGather_sound metadata _ hvalid
  refine ⟨rs, hrs, hrslen.trans (faissSearch_length _ _ _), ?_⟩
  intro r hr
  obtain ⟨i, hi, hip⟩ := hmem r hr
  exact pyList_get_mem hip

theorem get_top_k_recommendations_sorted_witness :
    ∃ rs, get_top_k_recommendations (fun _ => [0]) "q" [[5], [1]]
        [namedRecord "A", namedRecord "B"] 2 = some rs
      ∧ rs.length = 2
      ∧ ∀ r ∈ rs, r ∈ [namedRecord "A", namedRecord "B"] :=
  (get_top_k_recommendations_sorted (fun _ => [0]) "q" [[5], [1]]
    [namedRecord "A", namedRecord "B"] 2 (by decide) (by decide) (by simp)).1

/-- C6 counterexample: a two-row index queried with K = 3. FAISS returns
the labels `[1, 0, -1]`; Python resolves the padding label `-1` to the last
record, so the returned list is `[B, A, B]` and the distances along the
returned rows are `[1, 25, 1]`, which is not in ascending order. -/
theorem get_top_k_padding_breaks_order :
    get_top_k_recommendations (fun _ => [0]) "q" [[5], [1]]
        [namedRecord "A", namedRecord "B"] 3
      = some [namedRecord "B", namedRecord "A", namedRecord "B"]
    ∧ faissSearch [[5], [1]] [0] 3 = [1, 0, -1]
    ∧ ([1, 0, -1] : List Int).map
        (fun i => sqDist [0] ((pyList_get [[5], [1]] i).getD [])) = [1, 25, 1]
    ∧ ¬ List.Sorted (fun a b => (a : Int) ≤ b) [1, 25, 1] := by
  exact ⟨rfl, rfl, rfl, by decide⟩
